import Mathlib

/- Spec2Proof: a shallow embedding of the research-pipeline core of the
apify-deep-research repository (context budgeter, reference ledger, crawl
cache, chapter loop and document assembly), with theorems checking the
specification's claims against it. -/

/-- Document models one crawled content item as the source handles it: a url,
a title taken from the crawl metadata, and its text. -/
structure Document where
  url : String
  title : String
  text : String
deriving DecidableEq

/-- Chapter models one outline entry of ChaptersSchema: a number and a title. -/
structure Chapter where
  number : Nat
  title : String
deriving DecidableEq

/-- Paragraph models one entry of the ChapterContentSchema paragraphs array: a
text and the model-produced local reference numbers (arbitrary integers, since
the model may emit any number). -/
structure Paragraph where
  text : String
  references : List Int
deriving DecidableEq

/-- ChapterContent models one entry pushed onto chapterContents in main
(src/src/index.js lines 267-272). -/
structure ChapterContent where
  number : Nat
  title : String
  content : String
  summary : String
deriving DecidableEq

/-- joinSep models JavaScript Array.prototype.join: the elements concatenated
with the separator between consecutive elements. -/
def joinSep (sep : String) : List String → String
  | [] => ""
  | [x] => x
  | x :: y :: rest => x ++ sep ++ joinSep sep (y :: rest)

/-- wrapContent builds the positional delimiter of truncateContentsToFit
(src/unnamed/part_000 lines 24-26): the text wrapped in content tags carrying
a 1-based position. -/
def wrapContent (i : Nat) (text : String) : String :=
  "<content" ++ toString i ++ ">\n" ++ text ++ "\n</content" ++ toString i ++ ">"

/-- truncateGo is the for-loop of truncateContentsToFit (src/unnamed/part_000
lines 23-35): accLen is truncatedContents.length, total is totalTokens; a
document is accepted while the running total stays within the window and the
loop breaks at the first overflow. The estimator est stands for
estimateTokens, a pure function of the text (the gpt-tokenizer encoding
length). -/
def truncateGo (est : String → Nat) (contextWindow : Nat) :
    List Document → Nat → Nat → List Document
  | [], _, _ => []
  | c :: rest, accLen, total =>
    let contentTokens := est (wrapContent (accLen + 1) c.text)
    if total + contentTokens ≤ contextWindow then
      c :: truncateGo est contextWindow rest (accLen + 1) (total + contentTokens)
    else []

/-- truncateContentsToFit embeds the function of the same name
(src/unnamed/part_000 lines 11-38): when the prompt alone meets or exceeds the
context window (availableTokens <= 0) it returns the empty list, else it
greedily accepts a prefix of the contents. -/
def truncateContentsToFit (est : String → Nat) (prompt : String)
    (contents : List Document) (contextWindow : Nat) : List Document :=
  let baseTokens := est prompt
  if contextWindow ≤ baseTokens then []
  else truncateGo est contextWindow contents 0 baseTokens

/-- wrappedTokens sums the estimated tokens of documents as the loop wraps
them: the document at offset k past accLen is wrapped with index accLen+k+1. -/
def wrappedTokens (est : String → Nat) : Nat → List Document → Nat
  | _, [] => 0
  | accLen, c :: rest =>
    est (wrapContent (accLen + 1) c.text) + wrappedTokens est (accLen + 1) rest

/-- posOf is the position of a url in the ledger sequence; it agrees with
JavaScript Array.prototype.indexOf on every url that occurs in the list (in
citeOrGetIndex the looked-up url always does, having just been pushed). -/
def posOf (url : String) : List String → Nat
  | [] => 0
  | u :: rest => if u = url then 0 else posOf url rest + 1

/-- citeOrGetIndex embeds the inline reference-ledger update of
generateChapterContent (src/unnamed/part_001 lines 351-355): push the url when
it is not yet in usedReferences, then return the new ledger together with the
1-based index usedReferences.indexOf(url) + 1. -/
def citeOrGetIndex (used : List String) (url : String) : List String × Nat :=
  let used' := if url ∈ used then used else used ++ [url]
  (used', posOf url used' + 1)

/-- processRef embeds the body of the references.map callback
(src/unnamed/part_001 lines 347-359): the local reference number is checked
against the budgeted contents (contentIndex >= 0 and within range); an
in-range one is resolved to its document url, cited in the ledger and rendered
as an inline marker, an out-of-range one yields null. -/
def processRef (truncated : List Document) (used : List String) (refNum : Int) :
    List String × Option String :=
  let contentIndex := refNum - 1
  if 0 ≤ contentIndex then
    match truncated[contentIndex.toNat]? with
    | some doc =>
      let cited := citeOrGetIndex used doc.url
      (cited.1, some ("[(" ++ toString cited.2 ++ ")](" ++ doc.url ++ ")"))
    | none => (used, none)
  else (used, none)

/-- processRefs threads the ledger through one paragraph's reference numbers
in order and keeps the rendered markers of the in-range ones (the map followed
by filter(Boolean) of src/unnamed/part_001 lines 346-360). -/
def processRefs (truncated : List Document) :
    List String → List Int → List String × List String
  | used, [] => (used, [])
  | used, r :: rest =>
    let step := processRef truncated used r
    let done := processRefs truncated step.1 rest
    (done.1, match step.2 with
      | some s => s :: done.2
      | none => done.2)

/-- processParagraph renders one paragraph (src/unnamed/part_001 lines
344-363): the paragraph text, followed by a space and the concatenated markers
when at least one reference was in range. -/
def processParagraph (truncated : List Document) (used : List String)
    (para : Paragraph) : List String × String :=
  let done := processRefs truncated used para.references
  (done.1, para.text ++ (if done.2.isEmpty then "" else " " ++ String.join done.2))

/-- processParagraphs threads the ledger through a chapter's paragraphs in
order, collecting the rendered paragraph texts (src/unnamed/part_001 lines
344-369). -/
def processParagraphs (truncated : List Document) :
    List String → List Paragraph → List String × List String
  | used, [] => (used, [])
  | used, p :: ps =>
    let step := processParagraph truncated used p
    let done := processParagraphs truncated step.1 ps
    (done.1, step.2 :: done.2)

/-- chapterListText is the chaptersText of generateChapterContent
(src/unnamed/part_001 lines 297-299). -/
def chapterListText (chapters : List Chapter) : String :=
  joinSep "\n" (chapters.map (fun c => toString c.number ++ ". " ++ c.title))

/-- basePromptPre is the part of the basePrompt template of
generateChapterContent (src/unnamed/part_001 lines 301-317) that precedes the
interpolated previousChapter. -/
def basePromptPre (subject locale : String) (chapter : Chapter)
    (chapters : List Chapter) : String :=
  "For a comprehensive research paper on \"" ++ subject ++ "\" that covers the following chapters, generate the complete text for chapter " ++ toString chapter.number ++ ". You will receive a list of chapters, extensive contents to work with, and previous chapter text (previous_chapter). Use the provided contents and previous_chapter as your basis, ensuring that previous_chapter is only repeated when absolutely necessary. The chapter should be written in the " ++ locale ++ " locale and cover the chapter in its entirety.\n\nYour response should include:\n1. A summary of the chapter\n2. An array of paragraphs, where each paragraph has:\n   - The paragraph text\n   - An array of reference numbers (1-based) to the content items used in that paragraph\n\nDon't include the chapter title or number in your responses.\n\n<chapters>\n" ++ chapterListText chapters ++ "\n</chapters>\n\n<previous_chapter>\n"

/-- buildBasePrompt is the basePrompt template literal of
generateChapterContent: the fixed text with subject, chapter number, locale,
chapter list and previousChapter interpolated. -/
def buildBasePrompt (subject locale : String) (chapter : Chapter)
    (chapters : List Chapter) (previousChapter : String) : String :=
  basePromptPre subject locale chapter chapters ++ previousChapter ++ "\n</previous_chapter>"

/-- contentsTextOf is the contentsText of generateChapterContent
(src/unnamed/part_001 lines 331-333): the budgeted documents wrapped with
their 1-based positions and joined by blank lines. -/
def contentsTextOf (truncated : List Document) : String :=
  joinSep "\n\n" (truncated.enum.map (fun p => wrapContent (p.1 + 1) p.2.text))

/-- fullChapterPrompt is the prompt sent for one chapter body
(src/unnamed/part_001 line 335). -/
def fullChapterPrompt (subject locale : String) (chapter : Chapter)
    (chapters : List Chapter) (previousChapter : String)
    (truncated : List Document) : String :=
  buildBasePrompt subject locale chapter chapters previousChapter ++ "\n\n" ++ contentsTextOf truncated

/-- runChapters models the chapter loop of main (src/src/index.js lines
254-280): chapters are visited in the order the outline stage returned them,
each call receives the running previousText, and the produced chapter text
(here an oracle body, standing for the model-dependent result) is appended to
the buffer. The trace records, per generation call, the chapter number and the
previousText passed to that call. -/
def runChapters (body : Chapter → String) : List Chapter → String → List (Nat × String)
  | [], _ => []
  | c :: rest, previousText =>
    (c.number, previousText) :: runChapters body rest (previousText ++ body c)

/-- jsLowerChar models String.prototype.toLowerCase characterwise on the ASCII
range: an uppercase letter is shifted by 32, every other character kept. -/
def jsLowerChar (c : Char) : Char :=
  if 65 ≤ c.toNat ∧ c.toNat ≤ 90 then Char.ofNat (c.toNat + 32) else c

/-- jsToLower models url.toLowerCase(). -/
def jsToLower (s : String) : String :=
  ⟨s.data.map jsLowerChar⟩

/-- jsTrim models String.prototype.trim: whitespace removed from both ends. -/
def jsTrim (s : String) : String :=
  ⟨((s.data.dropWhile Char.isWhitespace).reverse.dropWhile Char.isWhitespace).reverse⟩

/-- normalizeUrl is url.toLowerCase().trim() as hashed by crawlUrls
(src/unnamed/part_001 lines 209-211 and 249-251). -/
def normalizeUrl (url : String) : String :=
  jsTrim (jsToLower url)

/-- cacheKey is the durable cache key of crawlUrls: a deterministic hash h
(standing for the md5 hex digest) of the normalized url. -/
def cacheKey (h : String → String) (url : String) : String :=
  h (normalizeUrl url)

/-- putRecord writes a value under a key, overwriting the record that already
carries the key and appending a fresh record otherwise: the semantics of
writing the file url_<key>.json, and of a JavaScript object assignment. -/
def putRecord {α : Type} : List (String × α) → String → α → List (String × α)
  | [], k, v => [(k, v)]
  | (k', v') :: rest, k, v =>
    if k' = k then (k, v) :: rest else (k', v') :: putRecord rest k v

/-- lookupRecord reads the value stored under a key, if any. -/
def lookupRecord {α : Type} : List (String × α) → String → Option α
  | [], _ => none
  | (k', v') :: rest, k => if k' = k then some v' else lookupRecord rest k

/-- cachePut stores a crawled document in the durable cache under the hash of
its normalized url (fs.writeJSON of src/unnamed/part_001 line 252). -/
def cachePut (h : String → String) (store : List (String × Document))
    (doc : Document) : List (String × Document) :=
  putRecord store (cacheKey h doc.url) doc

/-- cacheGet reads the durable cache record of a url, if present; it is a pure
lookup and returns no modified store (fs.pathExists plus fs.readJSON of
src/unnamed/part_001 lines 214-215). -/
def cacheGet (h : String → String) (store : List (String × Document))
    (url : String) : Option Document :=
  lookupRecord store (cacheKey h url)

/-- crawlReadPhase embeds the cache-read loop of crawlUrls
(src/unnamed/part_001 lines 208-224). The disk maps a cache key to nothing (no
such file), a document (a readable record) or a read error (an unreadable or
corrupt record, on which fs.readJSON throws); the loop accumulates the
in-memory corpus keyed by the raw url and the list of uncached urls, and a
read exception propagates out of the loop, the source having no handler. -/
def crawlReadPhase (h : String → String)
    (disk : String → Option (Except String Document)) :
    List String → List (String × Document) →
    Except String (List (String × Document) × List String)
  | [], cacheObj => .ok (cacheObj, [])
  | url :: rest, cacheObj =>
    match disk (cacheKey h url) with
    | some (.error e) => .error e
    | some (.ok doc) => crawlReadPhase h disk rest (putRecord cacheObj url doc)
    | none =>
      match crawlReadPhase h disk rest cacheObj with
      | .ok done => .ok (done.1, url :: done.2)
      | .error e => .error e

/-- referenceLine renders one bibliography line of generateDocument
(src/unnamed/part_001 lines 407-412): index is the 0-based position in
usedReferences and title maps a url to its stored reference title. -/
def referenceLine (title : String → String) (index : Nat) (url : String) : String :=
  "- [(" ++ toString (index + 1) ++ ")](" ++ url ++ ") " ++ title url

/-- orderedReferenceLines maps usedReferences with positions to bibliography
lines. -/
def orderedReferenceLines (title : String → String) (used : List String) : List String :=
  used.enum.map (fun p => referenceLine title p.1 p.2)

/-- orderedReferences is the bibliography text of generateDocument. -/
def orderedReferences (title : String → String) (used : List String) : String :=
  joinSep "\n" (orderedReferenceLines title used)

/-- tocLine is one table-of-contents line of generateDocument
(src/unnamed/part_001 line 404). -/
def tocLine (c : ChapterContent) : String :=
  toString c.number ++ ". [" ++ c.title ++ "](#chapter-" ++ toString c.number ++ ")"

/-- chapterBlock is one chapter section of the assembled content
(src/unnamed/part_001 lines 422-425). -/
def chapterBlock (c : ChapterContent) : String :=
  "\n<h2 id='chapter-" ++ toString c.number ++ "'>" ++ c.title ++ "</h2>\n\n*" ++ c.summary ++ "*\n\n" ++ c.content

/-- dateLineOf is the generation-stamp line of the assembled content
(src/unnamed/part_001 lines 416-418), today standing for
new Date().toISOString().split("T")[0]. -/
def dateLineOf (today : String) : String :=
  "\n*Generated on " ++ today ++ " by [apify-deep-research](https://github.com/mluggy/apify-deep-research) (not for commercial use)*\n"

/-- generateDocumentContent is the canonical markdown content assembled by
generateDocument (src/unnamed/part_001 lines 395-433): title, generation
stamp, table of contents, abstract, chapter sections, conclusions and the
bibliography, joined with newlines. -/
def generateDocumentContent (today subject abstract conclusions : String)
    (chapters : List ChapterContent) (title : String → String)
    (used : List String) : String :=
  joinSep "\n"
    (["# " ++ subject,
      dateLineOf today,
      joinSep "\n" (chapters.map tocLine),
      "\n",
      "*" ++ abstract ++ "*"]
      ++ chapters.map chapterBlock
      ++ ["\n---\n",
          "*" ++ conclusions ++ "*",
          "\n---\n",
          orderedReferences title used])

/-- collapseWsAux models subject.replace with the whitespace-run pattern and
an underscore replacement (src/unnamed/part_001 line 400): each maximal run of
whitespace becomes one separator; prevWs records whether the previous
character belonged to the current run. -/
def collapseWsAux : Bool → List Char → List Char
  | _, [] => []
  | prevWs, c :: rest =>
    if c.isWhitespace then
      if prevWs then collapseWsAux true rest
      else '_' :: collapseWsAux true rest
    else c :: collapseWsAux false rest

/-- dropLeadingSep removes one leading separator, the effect of the caret
alternative of the edge-stripping replace. -/
def dropLeadingSep : List Char → List Char
  | [] => []
  | c :: rest => if c = '_' then rest else c :: rest

/-- stripEdgeSep removes one leading and one trailing separator, the effect of
the edge-stripping replace of generateDocument (src/unnamed/part_001 line
401). -/
def stripEdgeSep (l : List Char) : List Char :=
  (dropLeadingSep (dropLeadingSep l).reverse).reverse

/-- slugOf is the output file base name of generateDocument
(src/unnamed/part_001 lines 398-401): the subject lower-cased, whitespace runs
replaced by underscores, then one leading and one trailing underscore
removed. -/
def slugOf (subject : String) : String :=
  ⟨stripEdgeSep (collapseWsAux false (jsToLower subject).data)⟩

/-- sepChainFree holds when no two adjacent characters are both separators. -/
def sepChainFree (l : List Char) : Prop :=
  l.Chain' (fun a b => ¬(a = '_' ∧ b = '_'))

/-- concatTexts models the repeated previousText += content.text of main
(src/src/index.js line 266): plain left-to-right concatenation. -/
def concatTexts : List String → String
  | [] => ""
  | t :: rest => t ++ concatTexts rest

/-- readableRecord holds of a disk lookup that does not raise on read: either
no record exists or the record parses as a document. -/
def readableRecord : Option (Except String Document) → Bool
  | some (.error _) => false
  | _ => true

/-- docDatePre is the fixed text of the assembled document that stands before
the interpolated date: the title line, the joining newline and the opening of
the generation-stamp line. -/
def docDatePre (subject : String) : String :=
  ("# " ++ subject) ++ ("\n" ++ "\n*Generated on ")

/-- docDateSuf is the text of the assembled document that stands after the
interpolated date; it does not depend on the date. -/
def docDateSuf (abstract conclusions : String) (chapters : List ChapterContent)
    (title : String → String) (used : List String) : String :=
  " by [apify-deep-research](https://github.com/mluggy/apify-deep-research) (not for commercial use)*\n" ++
    ("\n" ++ joinSep "\n"
      ([joinSep "\n" (chapters.map tocLine),
        "\n",
        "*" ++ abstract ++ "*"]
        ++ chapters.map chapterBlock
        ++ ["\n---\n",
            "*" ++ conclusions ++ "*",
            "\n---\n",
            orderedReferences title used]))

/- ===== theorems ===== -/

theorem truncateGo_tokens_le (est : String → Nat) (W : Nat) :
    ∀ (l : List Document) (accLen total : Nat), total ≤ W →
      total + wrappedTokens est accLen (truncateGo est W l accLen total) ≤ W := by
  intro l
  induction l with
  | nil => intro accLen total h; simpa [truncateGo, wrappedTokens] using h
  | cons c rest ih =>
    intro accLen total h
    by_cases hc : total + est (wrapContent (accLen + 1) c.text) ≤ W
    · have hrec := ih (accLen + 1) (total + est (wrapContent (accLen + 1) c.text)) hc
      simp only [truncateGo, hc, if_true, wrappedTokens]
      omega
    · simp only [truncateGo, hc, if_false, wrappedTokens]
      simpa using h

theorem truncateGo_front (est : String → Nat) (W : Nat) :
    ∀ (l : List Document) (accLen total : Nat), truncateGo est W l accLen total <+: l := by
  intro l
  induction l with
  | nil => intro accLen total; simp [truncateGo]
  | cons c rest ih =>
    intro accLen total
    by_cases hc : total + est (wrapContent (accLen + 1) c.text) ≤ W
    · simp only [truncateGo, hc, if_true]
      obtain ⟨t, ht⟩ := ih (accLen + 1) (total + est (wrapContent (accLen + 1) c.text))
      exact ⟨t, by rw [List.cons_append, ht]⟩
    · simp only [truncateGo, hc, if_false]
      exact ⟨c :: rest, rfl⟩

/-- C1: truncateContentsToFit returns the empty selection when the template
alone meets or exceeds the window; otherwise it returns a prefix of the
documents, built greedily in order with positional delimiters, whose
cumulative estimated tokens (template plus wrapped accepted documents) stay
within the window; and on [d1, d2, d3] where d1, d2 fit but d3 overflows it
returns exactly [d1, d2]. -/
theorem truncateContentsToFit_spec (est : String → Nat) (t : String)
    (ds : List Document) (W : Nat) :
    (W ≤ est t → truncateContentsToFit est t ds W = [])
  ∧ (est t < W → est t + wrappedTokens est 0 (truncateContentsToFit est t ds W) ≤ W)
  ∧ truncateContentsToFit est t ds W <+: ds
  ∧ (∀ d1 d2 d3 : Document, ds = [d1, d2, d3] → est t < W →
      est t + est (wrapContent 1 d1.text) + est (wrapContent 2 d2.text) ≤ W →
      ¬(est t + est (wrapContent 1 d1.text) + est (wrapContent 2 d2.text)
          + est (wrapContent 3 d3.text) ≤ W) →
      truncateContentsToFit est t ds W = [d1, d2]) := by
  refine ⟨?_, ?_, ?_, ?_⟩
  · intro h
    simp [truncateContentsToFit, h]
  · intro h
    have hW : ¬ W ≤ est t := by omega
    simp only [truncateContentsToFit, hW, if_false]
    exact truncateGo_tokens_le est W ds 0 (est t) (by omega)
  · by_cases h : W ≤ est t
    · simp only [truncateContentsToFit, h, if_true]
      exact ⟨ds, rfl⟩
    · simp only [truncateContentsToFit, h, if_false]
      exact truncateGo_front est W ds 0 (est t)
  · rintro d1 d2 d3 rfl hlt h12 h123
    have hW : ¬ W ≤ est t := by omega
    have ha : est t + est (wrapContent 1 d1.text) ≤ W := by omega
    simp [truncateContentsToFit, truncateGo, hW, ha, h12, h123]

/-- C1 witness: with length-based token estimation, a 1-token template and a
60-token window, the first two one-character documents fit and the third
overflows, so exactly the first two are selected. -/
theorem truncateContentsToFit_spec_witness :
    truncateContentsToFit (fun s => s.length) "p"
      [⟨"u1", "t1", "a"⟩, ⟨"u2", "t2", "a"⟩, ⟨"u3", "t3", "a"⟩] 60 =
      [⟨"u1", "t1", "a"⟩, ⟨"u2", "t2", "a"⟩] :=
  (truncateContentsToFit_spec (fun s => s.length) "p"
      [⟨"u1", "t1", "a"⟩, ⟨"u2", "t2", "a"⟩, ⟨"u3", "t3", "a"⟩] 60).2.2.2
    ⟨"u1", "t1", "a"⟩ ⟨"u2", "t2", "a"⟩ ⟨"u3", "t3", "a"⟩ rfl
    (by decide) (by decide) (by decide)

theorem posOf_append_of_mem {u : String} :
    ∀ {l : List String} (t : List String), u ∈ l → posOf u (l ++ t) = posOf u l := by
  intro l
  induction l with
  | nil => intro t h; cases h
  | cons v rest ih =>
    intro t h
    by_cases hv : v = u
    · simp [posOf, hv]
    · have hm : u ∈ rest := by
        rcases List.mem_cons.mp h with h1 | h1
        · exact absurd h1.symm hv
        · exact h1
      simp [posOf, hv, ih t hm]

theorem posOf_append_self {u : String} :
    ∀ {l : List String}, u ∉ l → posOf u (l ++ [u]) = l.length := by
  intro l
  induction l with
  | nil => intro _; simp [posOf]
  | cons v rest ih =>
    intro h
    simp only [List.mem_cons, not_or] at h
    obtain ⟨h1, h2⟩ := h
    simp [posOf, show v ≠ u from fun hEq => h1 hEq.symm, ih h2]

theorem cite_extends (used : List String) (url : String) :
    used <+: (citeOrGetIndex used url).1 := by
  by_cases h : url ∈ used
  · simp only [citeOrGetIndex, h, if_true]
    exact ⟨[], by simp⟩
  · simp only [citeOrGetIndex, h, if_false]
    exact ⟨[url], rfl⟩

theorem processRef_extends (truncated : List Document) (used : List String) (r : Int) :
    used <+: (processRef truncated used r).1 := by
  by_cases h0 : (0:Int) ≤ r - 1
  · cases hget : truncated[(r - 1).toNat]? with
    | some doc =>
      have hstep : processRef truncated used r =
          ((citeOrGetIndex used doc.url).1,
           some ("[(" ++ toString (citeOrGetIndex used doc.url).2 ++ ")](" ++ doc.url ++ ")")) := by
        simp only [processRef]
        rw [if_pos h0, hget]
      rw [hstep]
      exact cite_extends used doc.url
    | none =>
      have hstep : processRef truncated used r = (used, none) := by
        simp only [processRef]
        rw [if_pos h0, hget]
      rw [hstep]
  · have hstep : processRef truncated used r = (used, none) := by
      simp only [processRef]
      rw [if_neg h0]
    rw [hstep]

theorem processRefs_extends (truncated : List Document) :
    ∀ (rs : List Int) (used : List String), used <+: (processRefs truncated used rs).1 := by
  intro rs
  induction rs with
  | nil =>
    intro used
    exact ⟨[], by simp [processRefs]⟩
  | cons r rest ih =>
    intro used
    have h1 := processRef_extends truncated used r
    have h2 := ih (processRef truncated used r).1
    have hEq : (processRefs truncated used (r :: rest)).1 =
        (processRefs truncated (processRef truncated used r).1 rest).1 := by
      simp [processRefs]
    rw [hEq]
    exact h1.trans h2

theorem processParagraph_extends (truncated : List Document) (used : List String)
    (para : Paragraph) : used <+: (processParagraph truncated used para).1 := by
  simpa [processParagraph] using processRefs_extends truncated para.references used

theorem processParagraphs_extends (truncated : List Document) :
    ∀ (paras : List Paragraph) (used : List String),
      used <+: (processParagraphs truncated used paras).1 := by
  intro paras
  induction paras with
  | nil =>
    intro used
    exact ⟨[], by simp [processParagraphs]⟩
  | cons p ps ih =>
    intro used
    have h1 := processParagraph_extends truncated used p
    have h2 := ih (processParagraph truncated used p).1
    have hEq : (processParagraphs truncated used (p :: ps)).1 =
        (processParagraphs truncated (processParagraph truncated used p).1 ps).1 := by
      simp [processParagraphs]
    rw [hEq]
    exact h1.trans h2

/-- C2: the run-scoped reference ledger: a first citation appends the url and
returns its new 1-based position; a repeat citation returns the stored
position; an immediately repeated call is stable; the ledger only grows by
appending (each earlier state is a prefix of the state after any citation and
after any whole chapter-body processing), so no index already given to a url
is ever removed, reordered or reassigned; citing u1, u2, u1 from an empty
ledger yields 1, 2, 1. -/
theorem citeOrGetIndex_spec (used : List String) (url : String) :
    (url ∉ used → citeOrGetIndex used url = (used ++ [url], used.length + 1))
  ∧ (url ∈ used → citeOrGetIndex used url = (used, posOf url used + 1))
  ∧ citeOrGetIndex (citeOrGetIndex used url).1 url =
      ((citeOrGetIndex used url).1, (citeOrGetIndex used url).2)
  ∧ used <+: (citeOrGetIndex used url).1
  ∧ (∀ (truncated : List Document) (paras : List Paragraph),
      used <+: (processParagraphs truncated used paras).1
      ∧ ∀ v ∈ used, posOf v (processParagraphs truncated used paras).1 = posOf v used)
  ∧ (∀ u1 u2 : String, u1 ≠ u2 →
      (citeOrGetIndex [] u1).2 = 1
      ∧ (citeOrGetIndex (citeOrGetIndex [] u1).1 u2).2 = 2
      ∧ (citeOrGetIndex (citeOrGetIndex (citeOrGetIndex [] u1).1 u2).1 u1).2 = 1) := by
  refine ⟨?_, ?_, ?_, cite_extends used url, ?_, ?_⟩
  · intro h
    simp [citeOrGetIndex, h, posOf_append_self h]
  · intro h
    simp [citeOrGetIndex, h]
  · by_cases h : url ∈ used <;> simp [citeOrGetIndex, h]
  · intro truncated paras
    refine ⟨processParagraphs_extends truncated paras used, ?_⟩
    intro v hv
    obtain ⟨t, ht⟩ := processParagraphs_extends truncated paras used
    rw [← ht]
    exact posOf_append_of_mem t hv
  · intro u1 u2 hne
    refine ⟨?_, ?_, ?_⟩ <;> simp [citeOrGetIndex, posOf, hne, hne.symm]

/-- C2 witness: citing a fresh url against the one-element ledger appends it
at position 2, and the very first citation of a run gets position 1. -/
theorem citeOrGetIndex_spec_witness :
    citeOrGetIndex ["https://x"] "https://y" = (["https://x", "https://y"], 2)
    ∧ (citeOrGetIndex [] "https://x").2 = 1 := by
  constructor
  · have h := (citeOrGetIndex_spec ["https://x"] "https://y").1 (by decide)
    simpa using h
  · exact ((citeOrGetIndex_spec [] "q").2.2.2.2.2 "https://x" "https://y" (by decide)).1

theorem processRef_oor (truncated : List Document) (used : List String) (r : Int)
    (h : r ≤ 0 ∨ (truncated.length : Int) < r) :
    processRef truncated used r = (used, none) := by
  rcases h with h | h
  · simp only [processRef]
    rw [if_neg (by omega)]
  · by_cases h0 : (0:Int) ≤ r - 1
    · have hlen : truncated.length ≤ (r - 1).toNat := by omega
      simp only [processRef]
      rw [if_pos h0, List.getElem?_eq_none hlen]
    · simp only [processRef]
      rw [if_neg h0]

theorem processRefs_nil_of_oor (truncated : List Document) :
    ∀ (rs : List Int) (used : List String),
      (∀ r ∈ rs, r ≤ 0 ∨ (truncated.length : Int) < r) →
      processRefs truncated used rs = (used, []) := by
  intro rs
  induction rs with
  | nil => intro used _; simp [processRefs]
  | cons r rest ih =>
    intro used h
    have hstep := processRef_oor truncated used r (h r (List.mem_cons_self r rest))
    have hrest := ih used (fun x hx => h x (List.mem_cons_of_mem r hx))
    simp [processRefs, hstep, hrest]

/-- C7: a model-produced local reference index that is out of range for the
budgeted list (at most 0, or greater than the list length) is silently
dropped: no marker is rendered, the ledger is unchanged, and processing is a
total function that never fails; an in-range index is resolved to its
document's url, cited in the run ledger and rendered as a citation marker
appended to the paragraph text. -/
theorem processRef_local_spec (truncated : List Document) (used : List String)
    (refNum : Int) :
    (refNum ≤ 0 ∨ (truncated.length : Int) < refNum →
      processRef truncated used refNum = (used, none))
  ∧ (1 ≤ refNum → refNum ≤ (truncated.length : Int) →
      ∃ doc, truncated[(refNum - 1).toNat]? = some doc ∧
        processRef truncated used refNum =
          ((citeOrGetIndex used doc.url).1,
           some ("[(" ++ toString (citeOrGetIndex used doc.url).2 ++ ")](" ++ doc.url ++ ")")))
  ∧ (∀ para : Paragraph,
      (∀ r ∈ para.references, r ≤ 0 ∨ (truncated.length : Int) < r) →
      processParagraph truncated used para = (used, para.text))
  ∧ (∀ (para : Paragraph) (r : Int), para.references = [r] →
      1 ≤ r → r ≤ (truncated.length : Int) →
      ∃ doc, truncated[(r - 1).toNat]? = some doc ∧
        processParagraph truncated used para =
          ((citeOrGetIndex used doc.url).1,
           para.text ++ " " ++ "[(" ++ toString (citeOrGetIndex used doc.url).2 ++ ")](" ++ doc.url ++ ")")) := by
  refine ⟨processRef_oor truncated used refNum, ?_, ?_, ?_⟩
  · intro h1 h2
    have hlt : (refNum - 1).toNat < truncated.length := by omega
    refine ⟨truncated[(refNum - 1).toNat], List.getElem?_eq_getElem hlt, ?_⟩
    simp only [processRef]
    rw [if_pos (by omega), List.getElem?_eq_getElem hlt]
  · intro para h
    have hdone := processRefs_nil_of_oor truncated para.references used h
    simp [processParagraph, hdone]
  · intro para r hrefs h1 h2
    have hlt : (r - 1).toNat < truncated.length := by omega
    refine ⟨truncated[(r - 1).toNat], List.getElem?_eq_getElem hlt, ?_⟩
    have hpr : processRef truncated used r =
        ((citeOrGetIndex used (truncated.get ⟨(r - 1).toNat, hlt⟩).url).1,
         some ("[(" ++ toString (citeOrGetIndex used (truncated.get ⟨(r - 1).toNat, hlt⟩).url).2
            ++ ")](" ++ (truncated.get ⟨(r - 1).toNat, hlt⟩).url ++ ")")) := by
      simp only [processRef]
      rw [if_pos (by omega), List.getElem?_eq_getElem hlt]
      rfl
    simp [processParagraph, hrefs, processRefs, hpr, String.join, String.append_assoc]
    rfl

/-- C7 witness: against a one-document budget, the out-of-range index 5 is
dropped without any ledger entry, and a paragraph whose indices 0 and 2 are
all out of range renders as its bare text. -/
theorem processRef_local_spec_witness :
    processRef [⟨"https://u", "T", "x"⟩] [] 5 = ([], none)
    ∧ processParagraph [⟨"https://u", "T", "x"⟩] [] ⟨"p", [0, 2]⟩ = ([], "p") := by
  refine ⟨(processRef_local_spec [⟨"https://u", "T", "x"⟩] [] 5).1 (by decide), ?_⟩
  exact (processRef_local_spec [⟨"https://u", "T", "x"⟩] [] 5).2.2.1
    ⟨"p", [0, 2]⟩ (by decide)

/-- C4: the assembled bibliography lists exactly the cited urls of the run
ledger in citation-first-use order, the i-th line carrying number i+1, the
url and its stored title; and in the two-chapter scenario where chapter 1
cites document 1 and chapter 2 cites documents 1 and 2, the final ordering is
url1 then url2 and chapter 2's rendered marker for document 2 carries the
run-global index 2 although it was locally the second document of that call. -/
theorem bibliography_spec (title : String → String) (used : List String) :
    (∀ i : Nat, (orderedReferenceLines title used)[i]? =
      (used[i]?).map (fun u => "- [(" ++ toString (i + 1) ++ ")](" ++ u ++ ") " ++ title u))
  ∧ processParagraph [⟨"https://one", "T1", "x1"⟩] [] ⟨"p1", [1]⟩ =
      (["https://one"], "p1 [(1)](https://one)")
  ∧ processParagraph [⟨"https://one", "T1", "x1"⟩, ⟨"https://two", "T2", "x2"⟩]
      ["https://one"] ⟨"p2", [1, 2]⟩ =
      (["https://one", "https://two"], "p2 [(1)](https://one)[(2)](https://two)")
  ∧ orderedReferenceLines (fun u => if u = "https://one" then "One" else "Two")
      ["https://one", "https://two"] =
      ["- [(1)](https://one) One", "- [(2)](https://two) Two"] := by
  refine ⟨?_, by decide, by decide, by decide⟩
  intro i
  simp only [orderedReferenceLines, List.getElem?_map, List.getElem?_enum]
  cases used[i]? with
  | none => simp
  | some u => simp [referenceLine]

theorem lookupRecord_putRecord_self {α : Type} :
    ∀ (store : List (String × α)) (k : String) (v : α),
      lookupRecord (putRecord store k v) k = some v := by
  intro store
  induction store with
  | nil => intro k v; simp [putRecord, lookupRecord]
  | cons p rest ih =>
    intro k v
    cases p with
    | mk k' v' =>
      by_cases h : k' = k
      · simp [putRecord, lookupRecord, h]
      · simp [putRecord, lookupRecord, h, ih]

theorem putRecord_putRecord_same {α : Type} :
    ∀ (store : List (String × α)) (k : String) (v v' : α),
      putRecord (putRecord store k v) k v' = putRecord store k v' := by
  intro store
  induction store with
  | nil => intro k v v'; simp [putRecord]
  | cons p rest ih =>
    intro k v v'
    cases p with
    | mk k' w =>
      by_cases h : k' = k
      · simp [putRecord, h]
      · simp [putRecord, h, ih]

/-- C6: the durable cache key is a deterministic hash of the lower-cased,
trimmed url, so urls with equal normalizations share one key; putting a
document and looking its url up returns exactly that document; and a second
put for the same normalized url overwrites the same single record instead of
creating a duplicate (two successive puts equal the second put alone). The
lookup itself is a pure function of the store and url and returns no modified
store. -/
theorem cache_roundtrip_spec (h : String → String)
    (store : List (String × Document)) (doc : Document) :
    cacheGet h (cachePut h store doc) doc.url = some doc
  ∧ (∀ doc₂ : Document, normalizeUrl doc.url = normalizeUrl doc₂.url →
      cachePut h (cachePut h store doc) doc₂ = cachePut h store doc₂)
  ∧ (∀ u₂ : String, normalizeUrl doc.url = normalizeUrl u₂ →
      cacheKey h doc.url = cacheKey h u₂) := by
  refine ⟨?_, ?_, ?_⟩
  · simpa [cacheGet, cachePut] using
      lookupRecord_putRecord_self store (cacheKey h doc.url) doc
  · intro doc₂ hn
    have hk : cacheKey h doc.url = cacheKey h doc₂.url := by simp [cacheKey, hn]
    simp [cachePut, hk, putRecord_putRecord_same]
  · intro u₂ hn
    simp [cacheKey, hn]

/-- C6 witness: the same url in different letter case is one cache record, and
re-putting it with different content overwrites rather than duplicates. -/
theorem cache_roundtrip_spec_witness :
    cachePut (fun s => s) (cachePut (fun s => s) [] ⟨"http://X", "A", "1"⟩)
        ⟨"http://x", "B", "2"⟩ =
      cachePut (fun s => s) [] ⟨"http://x", "B", "2"⟩ :=
  (cache_roundtrip_spec (fun s => s) [] ⟨"http://X", "A", "1"⟩).2.1
    ⟨"http://x", "B", "2"⟩ (by decide)

/-- C10 counterexample: two raw urls differing only in case read the same
cached record, so the corpus has two raw-keyed entries whose value is that
one record; a chapter citing both corpus positions resolves each local index
to the stored record's url field (truncatedContents[contentIndex].url), so
both citations receive the same run-global index 1 and the ledger ends with a
single entry: the claimed two distinct citation indices are false. -/
theorem rawUrl_sameIndex_counterexample :
    crawlReadPhase (fun s => s)
        (fun k => if k = "http://a.com" then some (.ok ⟨"http://a.com", "T", "x"⟩) else none)
        ["http://A.com", "http://a.com"] [] =
      .ok ([("http://A.com", ⟨"http://a.com", "T", "x"⟩),
            ("http://a.com", ⟨"http://a.com", "T", "x"⟩)], [])
    ∧ processRefs [⟨"http://a.com", "T", "x"⟩, ⟨"http://a.com", "T", "x"⟩] [] [1, 2] =
        (["http://a.com"], ["[(1)](http://a.com)", "[(1)](http://a.com)"])
    ∧ (processRefs [⟨"http://a.com", "T", "x"⟩, ⟨"http://a.com", "T", "x"⟩] [] [1, 2]).1.length
        = 1 :=
  ⟨rfl, by decide, by decide⟩

/-- C10 amended: two distinct raw url strings that differ only in letter case
or surrounding whitespace share one normalized cache key, hence one on-disk
record; the in-memory corpus object is keyed by the raw url, so both strings
yield two separate corpus entries; but both entries hold the same stored
record, and a citation resolves the stored record's url field, so citing both
corpus documents yields one and the same citation index (a single ledger
entry), not two distinct ones. -/
theorem rawUrl_shared_record_amended (h : String → String) (u1 u2 : String)
    (doc : Document) (hne : u1 ≠ u2) (hnorm : normalizeUrl u1 = normalizeUrl u2) :
    cacheKey h u1 = cacheKey h u2
  ∧ (∀ disk : String → Option (Except String Document),
      disk (cacheKey h u1) = some (.ok doc) →
      crawlReadPhase h disk [u1, u2] [] = .ok ([(u1, doc), (u2, doc)], []))
  ∧ ([(u1, doc), (u2, doc)]).map Prod.snd = [doc, doc]
  ∧ processRefs [doc, doc] [] [1, 2] =
      ([doc.url],
       ["[(1)](" ++ doc.url ++ ")", "[(1)](" ++ doc.url ++ ")"]) := by
  have hk : cacheKey h u1 = cacheKey h u2 := by simp [cacheKey, hnorm]
  refine ⟨hk, ?_, rfl, ?_⟩
  · intro disk hd
    have hd2 : disk (cacheKey h u2) = some (.ok doc) := by rw [← hk]; exact hd
    simp [crawlReadPhase, hd, hd2, putRecord, hne]
  · simp [processRefs, processRef, citeOrGetIndex, posOf]
    rfl

/-- C10 amended witness: for the concrete case-differing urls sharing one
record, citing both corpus documents yields the same single index 1. -/
theorem rawUrl_shared_record_amended_witness :
    processRefs [⟨"http://a.com", "T", "x"⟩, ⟨"http://a.com", "T", "x"⟩] [] [1, 2] =
      (["http://a.com"], ["[(1)](http://a.com)", "[(1)](http://a.com)"]) := by
  have spec := rawUrl_shared_record_amended (fun s => s) "http://A.com" "http://a.com"
      ⟨"http://a.com", "T", "x"⟩ (by decide) (by decide)
  simpa using spec.2.2.2

/-- C5 counterexample: a corrupt cache record for the first url of the batch
makes the cache-read loop of crawlUrls return the read error itself: the
error is propagated out, not recovered as a cache miss, so the claim that a
cache read failure never propagates out of crawlUrls is false. -/
theorem crawlCacheRead_counterexample :
    crawlReadPhase (fun s => s)
      (fun k => if k = "https://bad" then some (.error "corrupt cache record") else none)
      ["https://bad", "https://ok"] [] = .error "corrupt cache record" := rfl

/-- C5 amended: a missing cache record is treated as a cache miss and the
crawl continues (the read phase completes and reports exactly the urls
without readable records as uncached); but when some url's record is
unreadable, the error propagates out of the read loop and aborts the stage.
The loop completes exactly when every present record of the batch is
readable. -/
theorem crawlReadPhase_amended (h : String → String)
    (disk : String → Option (Except String Document)) :
    ∀ (urls : List String) (cacheObj : List (String × Document)),
      (∀ url ∈ urls, readableRecord (disk (cacheKey h url)) = true) →
      ∃ corpus misses, crawlReadPhase h disk urls cacheObj = .ok (corpus, misses)
        ∧ misses = urls.filter (fun url => (disk (cacheKey h url)).isNone) := by
  intro urls
  induction urls with
  | nil => intro cacheObj _; exact ⟨cacheObj, [], rfl, rfl⟩
  | cons url rest ih =>
    intro cacheObj hr
    have hu := hr url (List.mem_cons_self url rest)
    have hrest := fun x hx => hr x (List.mem_cons_of_mem url hx)
    cases hd : disk (cacheKey h url) with
    | none =>
      obtain ⟨corpus, misses, h1, h2⟩ := ih cacheObj hrest
      refine ⟨corpus, url :: misses, ?_, ?_⟩
      · simp [crawlReadPhase, hd, h1]
      · simp [List.filter_cons, hd, h2]
    | some r =>
      cases r with
      | error e => simp [hd, readableRecord] at hu
      | ok d =>
        obtain ⟨corpus, misses, h1, h2⟩ := ih (putRecord cacheObj url d) hrest
        refine ⟨corpus, misses, ?_, ?_⟩
        · simp [crawlReadPhase, hd, h1]
        · simp [List.filter_cons, hd, h2]

/-- C5 amended witness: a batch with one readable record and one missing
record completes, reporting the missing url as uncached. -/
theorem crawlReadPhase_amended_witness :
    ∃ corpus misses,
      crawlReadPhase (fun s => s)
        (fun k => if k = "https://hit" then some (.ok ⟨"https://hit", "T", "x"⟩) else none)
        ["https://hit", "https://miss"] [] = .ok (corpus, misses) := by
  obtain ⟨c, m, h1, _⟩ := crawlReadPhase_amended (fun s => s)
    (fun k => if k = "https://hit" then some (.ok ⟨"https://hit", "T", "x"⟩) else none)
    ["https://hit", "https://miss"] [] (by decide)
  exact ⟨c, m, h1⟩

/-- C3 counterexample: for an outline numbered [2, 1, 3] the chapter loop of
main generates bodies in the outline's own order 2, 1, 3, not in ascending
chapter-number order 1, 2, 3 (no sort is applied anywhere), so the claim is
false. -/
theorem chapterOrder_counterexample :
    ((runChapters (fun c => c.title) [⟨2, "two"⟩, ⟨1, "one"⟩, ⟨3, "three"⟩] "").map Prod.fst
      = [2, 1, 3])
    ∧ ([2, 1, 3] : List Nat) ≠ [1, 2, 3] := by decide

theorem runChapters_map_fst (body : Chapter → String) :
    ∀ (chs : List Chapter) (buf : String),
      (runChapters body chs buf).map Prod.fst = chs.map Chapter.number := by
  intro chs
  induction chs with
  | nil => intro buf; simp [runChapters]
  | cons c rest ih => intro buf; simp [runChapters, ih]

theorem runChapters_getElem (body : Chapter → String) :
    ∀ (chs : List Chapter) (buf : String) (i : Nat),
      (runChapters body chs buf)[i]? =
        (chs[i]?).map (fun c => (c.number, buf ++ concatTexts ((chs.take i).map body))) := by
  intro chs
  induction chs with
  | nil => intro buf i; simp [runChapters]
  | cons c rest ih =>
    intro buf i
    cases i with
    | zero => simp [runChapters, concatTexts]
    | succ n =>
      simp only [runChapters, List.getElem?_cons_succ, ih (buf ++ body c) n,
        List.take_succ_cons, List.map_cons, concatTexts]
      cases rest[n]? with
      | none => simp
      | some c' => simp [String.append_assoc]

theorem concatTexts_contains (f : Chapter → String) :
    ∀ (l : List Chapter) (i j : Nat) (cj : Chapter), l[j]? = some cj → j < i →
      ∃ p q : String, concatTexts ((l.take i).map f) = p ++ f cj ++ q := by
  intro l
  induction l with
  | nil => intro i j cj hj _; simp at hj
  | cons c rest ih =>
    intro i j cj hj hji
    cases j with
    | zero =>
      have hc : c = cj := by simpa using hj
      cases i with
      | zero => omega
      | succ n =>
        refine ⟨"", concatTexts ((rest.take n).map f), ?_⟩
        simp [concatTexts, String.empty_append, hc]
    | succ m =>
      cases i with
      | zero => omega
      | succ n =>
        have hj' : rest[m]? = some cj := by simpa using hj
        obtain ⟨p, q, hpq⟩ := ih n m cj hj' (by omega)
        refine ⟨f c ++ p, q, ?_⟩
        simp only [List.take_succ_cons, List.map_cons, concatTexts, hpq,
          String.append_assoc]

theorem fullChapterPrompt_contains (subject locale : String) (chapter : Chapter)
    (chapters : List Chapter) (prev : String) (truncated : List Document) :
    ∃ p q : String,
      fullChapterPrompt subject locale chapter chapters prev truncated = p ++ prev ++ q := by
  refine ⟨basePromptPre subject locale chapter chapters,
    "\n</previous_chapter>" ++ "\n\n" ++ contentsTextOf truncated, ?_⟩
  simp [fullChapterPrompt, buildBasePrompt, String.append_assoc]

/-- C3 amended: the chapter loop generates bodies exactly in the order the
outline stage returned them (the trace of chapter numbers equals the
outline's number sequence, unsorted); each generation call receives as
previous-chapter context the initial buffer followed by the concatenation of
all previously generated chapter texts; the chapter prompt contains that
context verbatim; hence the prompt of any later call contains the full text
of every earlier generated chapter verbatim. -/
theorem chapterLoop_amended (body : Chapter → String) (chs : List Chapter) (buf : String) :
    ((runChapters body chs buf).map Prod.fst = chs.map Chapter.number)
  ∧ (∀ i : Nat, (runChapters body chs buf)[i]? =
      (chs[i]?).map (fun c => (c.number, buf ++ concatTexts ((chs.take i).map body))))
  ∧ (∀ (subject locale : String) (chapter : Chapter) (prev : String)
      (truncated : List Document),
      ∃ p q : String,
        fullChapterPrompt subject locale chapter chs prev truncated = p ++ prev ++ q)
  ∧ (∀ (subject locale : String) (i j : Nat) (ci cj : Chapter)
      (truncated : List Document),
      chs[i]? = some ci → chs[j]? = some cj → j < i →
      ∃ p q : String,
        fullChapterPrompt subject locale ci chs
          (buf ++ concatTexts ((chs.take i).map body)) truncated = p ++ body cj ++ q) := by
  refine ⟨runChapters_map_fst body chs buf, runChapters_getElem body chs buf, ?_, ?_⟩
  · intro subject locale chapter prev truncated
    exact fullChapterPrompt_contains subject locale chapter chs prev truncated
  · intro subject locale i j ci cj truncated hi hj hji
    obtain ⟨p1, q1, h1⟩ :=
      fullChapterPrompt_contains subject locale ci chs
        (buf ++ concatTexts ((chs.take i).map body)) truncated
    obtain ⟨p2, q2, h2⟩ := concatTexts_contains body chs i j cj hj hji
    refine ⟨p1 ++ (buf ++ p2), q2 ++ q1, ?_⟩
    rw [h1, h2]
    simp [String.append_assoc]

/-- C3 amended witness: for a two-chapter outline the trace of generated
numbers is the outline order, and the second call's prompt contains the first
chapter's text verbatim. -/
theorem chapterLoop_amended_witness :
    ((runChapters Chapter.title [⟨1, "alpha"⟩, ⟨2, "beta"⟩] "").map Prod.fst = [1, 2])
    ∧ ∃ p q : String,
        fullChapterPrompt "s" "en-US" ⟨2, "beta"⟩ [⟨1, "alpha"⟩, ⟨2, "beta"⟩]
          ("" ++ concatTexts (([⟨1, "alpha"⟩, ⟨2, "beta"⟩].take 1).map Chapter.title)) [] =
          p ++ Chapter.title ⟨1, "alpha"⟩ ++ q := by
  have spec := chapterLoop_amended Chapter.title [⟨1, "alpha"⟩, ⟨2, "beta"⟩] ""
  exact ⟨spec.1, spec.2.2.2 "s" "en-US" 1 0 ⟨2, "beta"⟩ ⟨1, "alpha"⟩ [] rfl rfl (by decide)⟩

theorem generateDocumentContent_decomp (today subject abstract conclusions : String)
    (chapters : List ChapterContent) (title : String → String) (used : List String) :
    generateDocumentContent today subject abstract conclusions chapters title used =
      docDatePre subject ++ (today ++ docDateSuf abstract conclusions chapters title used) := by
  simp [generateDocumentContent, dateLineOf, docDatePre, docDateSuf, joinSep,
    String.append_assoc]
  rfl

/-- C8 counterexample: the assembled content interpolates the generation date
(new Date), which is not part of the finalized run state, so assembling the
same run state on two different dates yields different bytes: the claim of
byte-identical reassembly from the run state alone is false. -/
theorem generateDocument_date_counterexample :
    generateDocumentContent "2025-01-01" "s" "a" "c" [] (fun _ => "") [] ≠
      generateDocumentContent "2025-01-02" "s" "a" "c" [] (fun _ => "") [] := by decide

/-- C8 amended: the assembled canonical text is a pure function of the
finalized run state together with the generation date: with the same date the
text is byte-identical, and the date occurs verbatim in the text, so
assemblies of the same run state agree exactly when their dates agree. -/
theorem generateDocument_date_amended (subject abstract conclusions : String)
    (chapters : List ChapterContent) (title : String → String) (used : List String)
    (d1 d2 : String) :
    (d1 = d2 →
      generateDocumentContent d1 subject abstract conclusions chapters title used =
        generateDocumentContent d2 subject abstract conclusions chapters title used)
  ∧ (generateDocumentContent d1 subject abstract conclusions chapters title used =
      generateDocumentContent d2 subject abstract conclusions chapters title used →
      d1 = d2) := by
  constructor
  · rintro rfl
    rfl
  · intro hEq
    rw [generateDocumentContent_decomp, generateDocumentContent_decomp] at hEq
    have h2 := congrArg String.data hEq
    simp only [String.data_append] at h2
    have h3 := List.append_cancel_left h2
    have h4 := List.append_cancel_right h3
    exact String.ext h4

/-- C8 amended witness: assembling twice with the same date yields identical
text. -/
theorem generateDocument_date_amended_witness :
    generateDocumentContent "2026-02-02" "s" "a" "c" [] (fun _ => "") [] =
      generateDocumentContent "2026-02-02" "s" "a" "c" [] (fun _ => "") [] :=
  (generateDocument_date_amended "s" "a" "c" [] (fun _ => "") [] "2026-02-02" "2026-02-02").1 rfl

/-- C9 counterexample: the edge-stripping replace removes only one leading and
one trailing underscore, so a subject that itself begins with two underscores
produces a base name that still begins with the separator, contradicting the
claim that the result has no leading separator. -/
theorem slug_counterexample :
    slugOf "__x" = "_x" ∧ (slugOf "__x").data.head? = some '_' := by decide

theorem charOfNat_toNat {n : Nat} (h : n < 55296) : (Char.ofNat n).toNat = n := by
  simp [Char.ofNat, Char.toNat, Nat.isValidChar, h, Char.ofNatAux, UInt32.toNat,
    BitVec.toNat_ofNatLt]

theorem jsLowerChar_underscore {c : Char} (h : jsLowerChar c = '_') : c = '_' := by
  unfold jsLowerChar at h
  split at h
  next hc =>
    exfalso
    have h2 := congrArg Char.toNat h
    rw [charOfNat_toNat (by omega)] at h2
    have h3 : ('_').toNat = 95 := by decide
    rw [h3] at h2
    omega
  next => exact h

theorem jsToLower_no_underscore {s : String} (h : '_' ∉ s.data) :
    '_' ∉ (jsToLower s).data := by
  intro hmem
  have hmem' : '_' ∈ s.data.map jsLowerChar := hmem
  obtain ⟨c, hc, hEq⟩ := List.mem_map.mp hmem'
  exact h (jsLowerChar_underscore hEq ▸ hc)

theorem collapseWs_ok : ∀ (l : List Char), '_' ∉ l →
    ∀ b, sepChainFree (collapseWsAux b l)
      ∧ (collapseWsAux true l).head? ≠ some '_' := by
  intro l
  induction l with
  | nil =>
    intro _ b
    constructor
    · simp [collapseWsAux, sepChainFree]
    · simp [collapseWsAux]
  | cons c rest ih =>
    intro h b
    have hrest : '_' ∉ rest := fun hx => h (List.mem_cons_of_mem c hx)
    have hc : c ≠ '_' := fun hEq => h (hEq ▸ List.mem_cons_self c rest)
    have IH := ih hrest
    by_cases hw : c.isWhitespace
    · constructor
      · cases b with
        | true => simpa [collapseWsAux, hw] using (IH true).1
        | false =>
          have hcollapse : collapseWsAux false (c :: rest) = '_' :: collapseWsAux true rest := by
            simp [collapseWsAux, hw]
          rw [hcollapse, sepChainFree, List.chain'_cons']
          refine ⟨?_, (IH true).1⟩
          intro y hy
          rintro ⟨_, hy'⟩
          apply (IH true).2
          rw [Option.mem_def] at hy
          rw [hy, hy']
      · have hcollapse : collapseWsAux true (c :: rest) = collapseWsAux true rest := by
          simp [collapseWsAux, hw]
        rw [hcollapse]
        exact (IH true).2
    · have hgoal : ∀ b' : Bool, collapseWsAux b' (c :: rest) = c :: collapseWsAux false rest := by
        intro b'
        simp [collapseWsAux, hw]
      constructor
      · rw [hgoal b, sepChainFree, List.chain'_cons']
        refine ⟨?_, (IH false).1⟩
        intro y _
        rintro ⟨hc', _⟩
        exact hc hc'
      · rw [hgoal true]
        simp [hc]

theorem chainFree_dropLead {l : List Char} (h : sepChainFree l) :
    sepChainFree (dropLeadingSep l) ∧ (dropLeadingSep l).head? ≠ some '_' := by
  cases l with
  | nil =>
    constructor
    · simpa [dropLeadingSep] using h
    · simp [dropLeadingSep]
  | cons c rest =>
    by_cases hc : c = '_'
    · subst hc
      have hd : dropLeadingSep ('_' :: rest) = rest := by simp [dropLeadingSep]
      rw [sepChainFree, List.chain'_cons'] at h
      obtain ⟨h1, h2⟩ := h
      rw [hd]
      refine ⟨h2, ?_⟩
      cases hr : rest.head? with
      | none => simp
      | some y =>
        have hy := h1 y (by rw [Option.mem_def, hr])
        intro hcontra
        exact hy ⟨rfl, Option.some.inj hcontra⟩
    · have hd : dropLeadingSep (c :: rest) = c :: rest := by simp [dropLeadingSep, hc]
      rw [hd]
      exact ⟨h, by simp [hc]⟩

theorem dropLead_getLast (l : List Char) :
    (dropLeadingSep l).getLast? = l.getLast? ∨ dropLeadingSep l = [] := by
  cases l with
  | nil => right; rfl
  | cons c rest =>
    by_cases hc : c = '_'
    · subst hc
      cases rest with
      | nil => right; simp [dropLeadingSep]
      | cons d ds =>
        left
        simp [dropLeadingSep, List.getLast?_cons_cons]
    · left
      simp [dropLeadingSep, hc]

theorem sepChainFree_reverse {l : List Char} (h : sepChainFree l) :
    sepChainFree l.reverse := by
  rw [sepChainFree, List.chain'_reverse]
  exact List.Chain'.imp (fun a b hab hx => hab ⟨hx.2, hx.1⟩) h

/-- C9 amended: the base name is a pure, deterministic function of the
subject: lower-case it, replace each whitespace run with one underscore, then
delete one leading and one trailing underscore if present; for every subject
that does not itself contain the separator character, the result has no
leading and no trailing separator. -/
theorem slug_amended (s : String) (h : '_' ∉ s.data) :
    (slugOf s).data.head? ≠ some '_' ∧ (slugOf s).data.getLast? ≠ some '_' := by
  have h2 := jsToLower_no_underscore h
  have h3 := (collapseWs_ok (jsToLower s).data h2 false).1
  have hdata : (slugOf s).data =
      (dropLeadingSep (dropLeadingSep (collapseWsAux false (jsToLower s).data)).reverse).reverse :=
    rfl
  obtain ⟨hch1, hh1⟩ := chainFree_dropLead h3
  have hch1r := sepChainFree_reverse hch1
  obtain ⟨hch2, hh2⟩ := chainFree_dropLead hch1r
  rw [hdata]
  constructor
  · rw [List.head?_reverse]
    rcases dropLead_getLast
        (dropLeadingSep (collapseWsAux false (jsToLower s).data)).reverse with hEq | hNil
    · rw [hEq, List.getLast?_reverse]
      exact hh1
    · rw [hNil]
      simp
  · rw [List.getLast?_reverse]
    exact hh2

/-- C9 amended witness: an ordinary subject with no separator of its own gets
a base name with no leading and no trailing separator. -/
theorem slug_amended_witness :
    (slugOf "My  Great Subject").data.head? ≠ some '_'
    ∧ (slugOf "My  Great Subject").data.getLast? ≠ some '_' :=
  slug_amended "My  Great Subject" (by decide)
